import Mathlib

/-!
Verification of the log-comparison utility in `src/diff-check.py`.

The program parses `/`-separated, `:`-keyed log lines into key/value
records, diffs two records key by key, collects mismatching line indices
and compresses them into inclusive integer ranges.

Strings are modelled as lists of characters (`Str`); Python's
`str.split(sep)` for a one-character separator is `splitOnChar`.
Python dicts (insertion-ordered, last value wins on duplicate keys) are
modelled as association lists built with `dictInsert`.
-/

/-- A text string, modelled as its list of characters. -/
abbrev Str := List Char

/-- Python's `s.split(sep)` for a single-character separator `sep`:
`splitOnChar sep []` is `[[]]`, and each occurrence of `sep` starts a new
group.  Matches `"".split(":") == [""]`, `"a:b".split(":") == ["a","b"]`,
`":".split(":") == ["",""]`. -/
def splitOnChar (sep : Char) : Str → List Str
  | [] => [[]]
  | c :: cs =>
    match splitOnChar sep cs with
    | [] => [[c]]
    | g :: gs => if c = sep then [] :: g :: gs else (c :: g) :: gs

/-- The key/value pair contributed by one `/`-segment, from line 6 of
`diff-check.py`: `p = r.split(":")`; the segment is kept iff `len(p) > 1`,
and then contributes `p[0] -> p[1]` (the pieces before the first `:` and
between the first and second `:`). -/
def segKV (r : Str) : Option (Str × Str) :=
  match splitOnChar ':' r with
  | p0 :: p1 :: _ => some (p0, p1)
  | _ => none

/-- Python `dict` assignment `d[k] = v`: if `k` is already a key its value
is replaced in place (insertion order kept), otherwise `(k, v)` is appended. -/
def dictInsert (d : List (Str × Str)) (k v : Str) : List (Str × Str) :=
  if d.any (fun p => p.1 == k) then
    d.map (fun p => if p.1 == k then (p.1, v) else p)
  else
    d ++ [(k, v)]

/-- One step of the dict comprehension in `parse`: a segment with a `:`
assigns its key/value pair into the dict, any other segment is dropped. -/
def parseStep (d : List (Str × Str)) (r : Str) : List (Str × Str) :=
  match segKV r with
  | some (k, v) => dictInsert d k v
  | none => d

/-- `parse` from `diff-check.py`, line 5-6:
`{p[0]: p[1] for r in l.split("/") if len(p := r.split(":")) > 1}` —
a dict comprehension over the `/`-segments of the line. -/
def parse (l : Str) : List (Str × Str) :=
  (splitOnChar '/' l).foldl parseStep []

/-- Python `d[k]` / `k in d.keys()` on the association-list model:
the value at the first entry whose key is `k`, if any. -/
def lookupD (d : List (Str × Str)) (k : Str) : Option Str :=
  (d.find? (fun p => p.1 == k)).map (fun p => p.2)

/-- The sentinel used for a key missing on side 2 (`"(not set)"`). -/
def notSet : Str := "(not set)".toList

/-- `diff_lines` from `diff-check.py`, lines 24-31.  An entry
`(k, v1, v2)` stands for the Python item `k: {1: v1, 2: v2}`; entries are
produced in the key order of side 1's record. -/
def diff_lines (line1 line2 : Str) : List (Str × Str × Str) :=
  let pl1 := parse line1
  let pl2 := parse line2
  pl1.filterMap (fun p =>
    match lookupD pl2 p.1 with
    | none => some (p.1, p.2, notSet)
    | some v2 => if p.2 ≠ v2 then some (p.1, p.2, v2) else none)

/-- The filtered diff computed inside `main` (`diff-check.py` lines 51-57):
like `diff_lines` but a key in `ignored` is never included
(`... if (k not in pl2.keys() or pl1[k] != pl2[k]) and k not in ignored`).
`lookupD pl2 k ≠ some v1` is exactly `k not in pl2 or pl1[k] != pl2[k]`,
and `(lookupD pl2 k).getD notSet` is `pl2[k] if k in pl2.keys() else "(not set)"`. -/
def diffWith (ignored : List Str) (line1 line2 : Str) : List (Str × Str × Str) :=
  let pl1 := parse line1
  let pl2 := parse line2
  pl1.filterMap (fun p =>
    if lookupD pl2 p.1 ≠ some p.2 ∧ p.1 ∉ ignored then
      some (p.1, p.2, (lookupD pl2 p.1).getD notSet)
    else none)

/-- The loop body state of `ranges` (`diff-check.py` lines 15-19).  The
Python list `current` is only ever read through `current[0]` and
`current[-1]`; here it is kept as a whole list, read through `headI` and
`getLastD 0` (it is nonempty whenever read). -/
def rangesGo (current : List Int) (acc : List (Int × Int)) :
    List Int → List (Int × Int)
  | [] => acc ++ [(current.headI, current.getLastD 0)]
  | i :: rest =>
    if i ≠ current.getLastD 0 + 1 then
      rangesGo [i] (acc ++ [(current.headI, current.getLastD 0)]) rest
    else
      rangesGo (current ++ [i]) acc rest

/-- `ranges` from `diff-check.py`, lines 9-21.  Python's `sorted` is the
ascending stable sort; on integers any ascending sort yields the same
list, here `List.insertionSort (· ≤ ·)`. -/
def ranges (vals : List Int) : List (Int × Int) :=
  if vals = [] then []
  else
    match List.insertionSort (· ≤ ·) vals with
    | [] => []
    | v :: vs => rangesGo [v] [] vs

/-- Direct (non-accumulator) form of the run-length scan: `runsFrom lo hi l`
is the list of closed ranges produced when the currently open run is
`(lo, hi)` and `l` is the remaining input. -/
def runsFrom (lo hi : Int) : List Int → List (Int × Int)
  | [] => [(lo, hi)]
  | i :: rest =>
    if i = hi + 1 then runsFrom lo i rest
    else (lo, hi) :: runsFrom i i rest

/-- The closed integer interval `[lo, hi]` as an ascending list. -/
def intList (lo hi : Int) : List Int :=
  (List.range (hi + 1 - lo).toNat).map (fun (k : Nat) => lo + (k : Int))

/-- The scanning loop of `main` (`diff-check.py` lines 47-73), restricted to
its mistake bookkeeping: `i` is the current line index, the pairs are the
remaining `(log1[i], log2[i])` lines, `mistakes` the indices recorded so
far.  A pair of identical lines is skipped; otherwise the filtered diff is
computed and, if non-empty, `i` is recorded; after recording, the loop
breaks as soon as `len(mistakes) > limit`. -/
def scan (ignored : List Str) (limit : Int) :
    Nat → List (Str × Str) → List Nat → List Nat
  | _, [], mistakes => mistakes
  | i, (l1, l2) :: rest, mistakes =>
    if l1 = l2 then scan ignored limit (i + 1) rest mistakes
    else if diffWith ignored l1 l2 = [] then scan ignored limit (i + 1) rest mistakes
    else
      let mistakes₁ := mistakes ++ [i]
      if (mistakes₁.length : Int) > limit then mistakes₁
      else scan ignored limit (i + 1) rest mistakes₁

/-- The observable outcome of one run of `main`. -/
inductive MainResult where
  | lengthMismatch : MainResult
  | success : MainResult
  | mistakes : List (Int × Int) → MainResult
deriving DecidableEq

/-- `main` from `diff-check.py` (lines 34-84), as a function of the two
logs' lines and the configuration: abort on unequal line counts (line
41-43); otherwise scan; report success on zero mistakes (line 75-76) and
otherwise the compressed ranges of the recorded mistake indices
(lines 78-84). -/
def mainRun (ignored : List Str) (limit : Int) (log1 log2 : List Str) : MainResult :=
  if log1.length ≠ log2.length then .lengthMismatch
  else
    let ms := scan ignored limit 0 (log1.zip log2) []
    if ms.length = 0 then .success
    else .mistakes (ranges (ms.map Int.ofNat))

/-- The context diffs printed for a mistake at line `i` (`diff-check.py`
lines 61-67): for `j = 0, 1, 2`, skip if `i - (3 - j) < 0`, else the diff
of the line pair at index `i - (3 - j)`, computed by `diff_lines` (which
takes no ignore set). -/
def contextDiffs (log1 log2 : List Str) (i : Nat) : List (List (Str × Str × Str)) :=
  (List.range 3).filterMap (fun j =>
    if i < 3 - j then none
    else some (diff_lines (log1.getD (i - (3 - j)) []) (log2.getD (i - (3 - j)) [])))

/-- Modelled from the spec's words, for comparison with `contextDiffs`:
the same context diffs but computed with an ignore set applied, i.e. using
the filtered diff `diffWith ignored` in place of `diff_lines`. -/
def contextDiffsWith (ignored : List Str) (log1 log2 : List Str) (i : Nat) :
    List (List (Str × Str × Str)) :=
  (List.range 3).filterMap (fun j =>
    if i < 3 - j then none
    else some (diffWith ignored (log1.getD (i - (3 - j)) []) (log2.getD (i - (3 - j)) [])))

/-! ### Facts about the range-compression scan -/

lemma intList_self (x : Int) : intList x x = [x] := by
  unfold intList
  have h1 : (x + 1 - x).toNat = 1 := by omega
  rw [h1, List.range_succ]
  simp

lemma intList_concat (lo hi : Int) (h : lo ≤ hi + 1) :
    intList lo (hi + 1) = intList lo hi ++ [hi + 1] := by
  unfold intList
  have h1 : (hi + 1 + 1 - lo).toNat = (hi + 1 - lo).toNat + 1 := by omega
  rw [h1, List.range_succ, List.map_append]
  simp only [List.map_cons, List.map_nil]
  have h2 : lo + ((hi + 1 - lo).toNat : Int) = hi + 1 := by omega
  rw [h2]

lemma rangesGo_eq_runsFrom (l : List Int) :
    ∀ (c : Int) (cs : List Int) (acc : List (Int × Int)),
      rangesGo (c :: cs) acc l = acc ++ runsFrom c ((c :: cs).getLastD 0) l := by
  induction l with
  | nil =>
    intro c cs acc
    simp [rangesGo, runsFrom, List.headI]
  | cons i rest ih =>
    intro c cs acc
    rw [rangesGo]
    by_cases h : i = (c :: cs).getLastD 0 + 1
    · rw [if_neg (by simpa using h)]
      have := ih c (cs ++ [i]) acc
      rw [show (c :: cs) ++ [i] = c :: (cs ++ [i]) from rfl, this]
      have hlast : (c :: (cs ++ [i])).getLastD 0 = i := by
        rw [show c :: (cs ++ [i]) = (c :: cs) ++ [i] from rfl]
        exact List.getLastD_concat _ _ _
      rw [hlast, runsFrom, if_pos h]
    · rw [if_pos (by simpa using h)]
      have := ih i [] (acc ++ [(c, (c :: cs).getLastD 0)])
      simp only [List.headI] at this ⊢
      rw [this, runsFrom, if_neg h]
      simp [List.getLastD]

lemma insertionSort_self_nil (vals : List Int)
    (h : List.insertionSort (· ≤ ·) vals = []) : vals = [] := by
  have hp := List.perm_insertionSort (· ≤ ·) vals
  rw [h] at hp
  exact hp.symm.eq_nil

lemma ranges_eq_runsFrom (vals : List Int) (v : Int) (vs : List Int)
    (h : List.insertionSort (· ≤ ·) vals = v :: vs) :
    ranges vals = runsFrom v v vs := by
  have hne : vals ≠ [] := by
    intro he
    rw [he] at h
    simp [List.insertionSort] at h
  unfold ranges
  rw [if_neg hne, h]
  show rangesGo [v] [] vs = runsFrom v v vs
  have := rangesGo_eq_runsFrom vs v [] []
  simpa [List.getLastD] using this

lemma runsFrom_head (l : List Int) :
    ∀ lo hi : Int, ∃ e tl, runsFrom lo hi l = (lo, e) :: tl := by
  induction l with
  | nil => intro lo hi; exact ⟨hi, [], rfl⟩
  | cons i rest ih =>
    intro lo hi
    rw [runsFrom]
    by_cases h : i = hi + 1
    · rw [if_pos h]; exact ih lo i
    · rw [if_neg h]; exact ⟨hi, runsFrom i i rest, rfl⟩

lemma runsFrom_flatMap (l : List Int) :
    ∀ lo hi : Int, lo ≤ hi → List.Chain' (· < ·) (hi :: l) →
      (runsFrom lo hi l).flatMap (fun r => intList r.1 r.2) = intList lo hi ++ l := by
  induction l with
  | nil =>
    intro lo hi _ _
    simp [runsFrom]
  | cons i rest ih =>
    intro lo hi hle hch
    rw [List.chain'_cons] at hch
    obtain ⟨hlt, hch'⟩ := hch
    rw [runsFrom]
    by_cases h : i = hi + 1
    · rw [if_pos h]
      rw [ih lo i (by omega) hch']
      subst h
      rw [intList_concat lo hi (by omega)]
      simp
    · rw [if_neg h]
      simp only [List.flatMap_cons]
      rw [ih i i le_rfl hch', intList_self]
      simp

lemma runsFrom_bounds (l : List Int) :
    ∀ lo hi : Int, lo ≤ hi → List.Chain' (· ≤ ·) (hi :: l) →
      ∀ r ∈ runsFrom lo hi l, r.1 ≤ r.2 := by
  induction l with
  | nil =>
    intro lo hi hle _ r hr
    simp [runsFrom] at hr
    subst hr
    exact hle
  | cons i rest ih =>
    intro lo hi hle hch r hr
    rw [List.chain'_cons] at hch
    obtain ⟨hhi, hch'⟩ := hch
    rw [runsFrom] at hr
    by_cases h : i = hi + 1
    · rw [if_pos h] at hr
      exact ih lo i (by omega) hch' r hr
    · rw [if_neg h] at hr
      rcases List.mem_cons.mp hr with he | hm
      · subst he; exact hle
      · exact ih i i le_rfl hch' r hm

lemma runsFrom_chain (l : List Int) :
    ∀ lo hi : Int, List.Chain' (· < ·) (hi :: l) →
      List.Chain' (fun r s : Int × Int => r.2 + 1 < s.1) (runsFrom lo hi l) := by
  induction l with
  | nil =>
    intro lo hi _
    simp [runsFrom]
  | cons i rest ih =>
    intro lo hi hch
    rw [List.chain'_cons] at hch
    obtain ⟨hlt, hch'⟩ := hch
    rw [runsFrom]
    by_cases h : i = hi + 1
    · rw [if_pos h]
      exact ih lo i hch'
    · rw [if_neg h]
      obtain ⟨e, tl, heq⟩ := runsFrom_head rest i i
      rw [heq, List.chain'_cons]
      constructor
      · show hi + 1 < i
        -- strict sortedness gives hi < i; the run broke, so i ≠ hi + 1
        omega
      · rw [← heq]
        exact ih i i hch'

lemma runsFrom_cover (l : List Int) :
    ∀ lo hi m : Int, lo ≤ hi → List.Chain' (· ≤ ·) (hi :: l) →
      ((lo ≤ m ∧ m ≤ hi) ∨ m ∈ l) →
      ∃ r ∈ runsFrom lo hi l, r.1 ≤ m ∧ m ≤ r.2 := by
  induction l with
  | nil =>
    intro lo hi m hle _ hm
    rcases hm with ⟨h1, h2⟩ | hm
    · exact ⟨(lo, hi), by simp [runsFrom], h1, h2⟩
    · simp at hm
  | cons i rest ih =>
    intro lo hi m hle hch hm
    rw [List.chain'_cons] at hch
    obtain ⟨hhi, hch'⟩ := hch
    rw [runsFrom]
    by_cases h : i = hi + 1
    · rw [if_pos h]
      refine ih lo i m (by omega) hch' ?_
      rcases hm with ⟨h1, h2⟩ | hm
      · exact Or.inl ⟨h1, by omega⟩
      · rcases List.mem_cons.mp hm with he | hm'
        · exact Or.inl ⟨by omega, by omega⟩
        · exact Or.inr hm'
    · rw [if_neg h]
      rcases hm with ⟨h1, h2⟩ | hm
      · exact ⟨(lo, hi), List.mem_cons_self _ _, h1, h2⟩
      · rcases List.mem_cons.mp hm with he | hm'
        · subst he
          obtain ⟨r, hr, h1, h2⟩ := ih m m m le_rfl hch' (Or.inl ⟨le_rfl, le_rfl⟩)
          exact ⟨r, List.mem_cons_of_mem _ hr, h1, h2⟩
        · obtain ⟨r, hr, h1, h2⟩ := ih i i m le_rfl hch' (Or.inr hm')
          exact ⟨r, List.mem_cons_of_mem _ hr, h1, h2⟩

lemma sorted_chain_le (vals : List Int) (v : Int) (vs : List Int)
    (h : List.insertionSort (· ≤ ·) vals = v :: vs) :
    List.Chain' (· ≤ ·) (v :: vs) := by
  have hs := List.sorted_insertionSort (· ≤ ·) vals
  rw [h] at hs
  exact List.chain'_iff_pairwise.mpr hs

lemma sorted_chain_lt (vals : List Int) (v : Int) (vs : List Int)
    (hd : vals.Pairwise (· ≠ ·))
    (h : List.insertionSort (· ≤ ·) vals = v :: vs) :
    List.Chain' (· < ·) (v :: vs) := by
  have hs := List.sorted_insertionSort (· ≤ ·) vals
  rw [h] at hs
  have hnd : (v :: vs).Nodup := by
    have hp := List.perm_insertionSort (· ≤ ·) vals
    rw [h] at hp
    exact hp.symm.nodup hd
  exact List.chain'_iff_pairwise.mpr (hs.lt_of_le hnd)

lemma ranges_flatMap (vals : List Int) (hd : vals.Pairwise (· ≠ ·)) :
    (ranges vals).flatMap (fun r => intList r.1 r.2) =
      List.insertionSort (· ≤ ·) vals := by
  rcases h : List.insertionSort (· ≤ ·) vals with _ | ⟨v, vs⟩
  · rw [insertionSort_self_nil vals h]
    simp [ranges]
  · rw [ranges_eq_runsFrom vals v vs h]
    rw [runsFrom_flatMap vs v v le_rfl (sorted_chain_lt vals v vs hd h)]
    rw [intList_self]
    rfl

lemma ranges_le (vals : List Int) : ∀ r ∈ ranges vals, r.1 ≤ r.2 := by
  rcases h : List.insertionSort (· ≤ ·) vals with _ | ⟨v, vs⟩
  · rw [insertionSort_self_nil vals h]
    simp [ranges]
  · rw [ranges_eq_runsFrom vals v vs h]
    exact runsFrom_bounds vs v v le_rfl (sorted_chain_le vals v vs h)

lemma ranges_chain (vals : List Int) (hd : vals.Pairwise (· ≠ ·)) :
    List.Chain' (fun r s : Int × Int => r.2 + 1 < s.1) (ranges vals) := by
  rcases h : List.insertionSort (· ≤ ·) vals with _ | ⟨v, vs⟩
  · rw [insertionSort_self_nil vals h]
    simp [ranges]
  · rw [ranges_eq_runsFrom vals v vs h]
    exact runsFrom_chain vs v v (sorted_chain_lt vals v vs hd h)

lemma ranges_cover (vals : List Int) :
    ∀ m ∈ vals, ∃ r ∈ ranges vals, r.1 ≤ m ∧ m ≤ r.2 := by
  intro m hm
  rcases h : List.insertionSort (· ≤ ·) vals with _ | ⟨v, vs⟩
  · rw [insertionSort_self_nil vals h] at hm
    simp at hm
  · rw [ranges_eq_runsFrom vals v vs h]
    have hm' : m ∈ v :: vs := by
      rw [← h]
      exact (List.perm_insertionSort (· ≤ ·) vals).symm.subset hm
    refine runsFrom_cover vs v v m le_rfl (sorted_chain_le vals v vs h) ?_
    rcases List.mem_cons.mp hm' with he | hmm
    · exact Or.inl ⟨le_of_eq he.symm, le_of_eq he⟩
    · exact Or.inr hmm

/-! ### Facts about `parse` and the dict model -/

lemma lookupD_nil (k : Str) : lookupD [] k = none := rfl

lemma lookupD_cons_of_pos (a : Str × Str) (d : List (Str × Str)) (k : Str)
    (h : a.1 = k) : lookupD (a :: d) k = some a.2 := by
  unfold lookupD
  rw [List.find?_cons_of_pos _ (by simpa using h)]
  rfl

lemma lookupD_cons_of_neg (a : Str × Str) (d : List (Str × Str)) (k : Str)
    (h : ¬ a.1 = k) : lookupD (a :: d) k = lookupD d k := by
  unfold lookupD
  rw [List.find?_cons_of_neg _ (by simpa using h)]

lemma lookupD_map_update_self (k v : Str) :
    ∀ d : List (Str × Str), d.any (fun p => p.1 == k) = true →
      lookupD (d.map (fun p => if p.1 == k then (p.1, v) else p)) k = some v := by
  intro d
  induction d with
  | nil => intro h; simp at h
  | cons a d ih =>
    intro h
    rw [List.map_cons]
    by_cases ha : a.1 = k
    · rw [if_pos (by simpa using ha)]
      rw [lookupD_cons_of_pos (a.1, v) _ k ha]
    · rw [if_neg (by simpa using ha)]
      rw [lookupD_cons_of_neg a _ k ha]
      refine ih ?_
      rcases List.any_eq_true.mp h with ⟨p, hp, hpk⟩
      rcases List.mem_cons.mp hp with he | hm
      · exact absurd (by subst he; simpa using hpk) ha
      · exact List.any_eq_true.mpr ⟨p, hm, hpk⟩

lemma lookupD_map_update_ne (k v kq : Str) (hq : kq ≠ k) :
    ∀ d : List (Str × Str),
      lookupD (d.map (fun p => if p.1 == k then (p.1, v) else p)) kq = lookupD d kq := by
  intro d
  induction d with
  | nil => rfl
  | cons a d ih =>
    rw [List.map_cons]
    by_cases ha : a.1 = k
    · have hne : ¬ a.1 = kq := by rw [ha]; exact fun e => hq e.symm
      rw [if_pos (by simpa using ha)]
      rw [lookupD_cons_of_neg (a.1, v) _ kq hne, lookupD_cons_of_neg a _ kq hne]
      exact ih
    · rw [if_neg (by simpa using ha)]
      by_cases haq : a.1 = kq
      · rw [lookupD_cons_of_pos a _ kq haq, lookupD_cons_of_pos a _ kq haq]
      · rw [lookupD_cons_of_neg a _ kq haq, lookupD_cons_of_neg a _ kq haq]
        exact ih

lemma lookupD_dictInsert (d : List (Str × Str)) (k v kq : Str) :
    lookupD (dictInsert d k v) kq = if kq = k then some v else lookupD d kq := by
  unfold dictInsert
  by_cases h : d.any (fun p => p.1 == k) = true
  · rw [if_pos h]
    by_cases hq : kq = k
    · subst hq
      rw [if_pos rfl]
      exact lookupD_map_update_self kq v d h
    · rw [if_neg hq]
      exact lookupD_map_update_ne k v kq hq d
  · rw [if_neg h]
    have hnone : d.find? (fun p => p.1 == k) = none := by
      rw [List.find?_eq_none]
      intro p hp hpk
      exact h (List.any_eq_true.mpr ⟨p, hp, hpk⟩)
    by_cases hq : kq = k
    · subst hq
      rw [if_pos rfl]
      simp [lookupD, List.find?_append, hnone, List.find?_cons]
    · rw [if_neg hq]
      have hkq : ¬ (k = kq) := fun e => hq e.symm
      simp [lookupD, List.find?_append, List.find?_cons, hkq, Option.or_none]

lemma lookupD_foldl (segs : List Str) :
    ∀ (d : List (Str × Str)) (k : Str),
      lookupD (segs.foldl parseStep d) k =
        ((((segs.filterMap segKV).filter (fun p => p.1 == k)).getLast?).map
          (fun p => p.2)).or (lookupD d k) := by
  induction segs with
  | nil =>
    intro d k
    simp
  | cons r rest ih =>
    intro d k
    rw [List.foldl_cons]
    rcases hr : segKV r with _ | ⟨k₀, v₀⟩
    · rw [show parseStep d r = d by simp [parseStep, hr]]
      rw [ih d k]
      simp [List.filterMap_cons, hr]
    · rw [show parseStep d r = dictInsert d k₀ v₀ by simp [parseStep, hr]]
      rw [ih (dictInsert d k₀ v₀) k, lookupD_dictInsert]
      rw [List.filterMap_cons, hr]
      by_cases hk : k₀ = k
      · subst hk
        have hfil : List.filter (fun p => p.1 == k₀) ((k₀, v₀) :: rest.filterMap segKV) =
            (k₀, v₀) :: List.filter (fun p => p.1 == k₀) (rest.filterMap segKV) :=
          List.filter_cons_of_pos (by simp)
        rw [hfil, if_pos rfl]
        rcases hrest : (rest.filterMap segKV).filter (fun p => p.1 == k₀) with _ | ⟨x, xs⟩
        · rw [hrest]
          rfl
        · obtain ⟨y, hy⟩ : ∃ y, (x :: xs).getLast? = some y :=
            ⟨(x :: xs).getLast (by simp), List.getLast?_eq_getLast _ (by simp)⟩
          rw [hrest, List.getLast?_cons_cons, hy]
          rfl
      · have hfil : List.filter (fun p => p.1 == k) ((k₀, v₀) :: rest.filterMap segKV) =
            List.filter (fun p => p.1 == k) (rest.filterMap segKV) :=
          List.filter_cons_of_neg (by simpa using hk)
        rw [hfil, if_neg (fun e => hk e.symm)]

lemma parse_lookup (l : Str) (k : Str) :
    lookupD (parse l) k =
      ((((splitOnChar '/' l).filterMap segKV).filter (fun p => p.1 == k)).getLast?).map
        (fun p => p.2) := by
  unfold parse
  rw [lookupD_foldl, lookupD_nil, Option.or_none]

lemma map_fst_update (d : List (Str × Str)) (k v : Str) :
    (d.map (fun p => if p.1 == k then (p.1, v) else p)).map Prod.fst = d.map Prod.fst := by
  induction d with
  | nil => rfl
  | cons a d ih =>
    rw [List.map_cons, List.map_cons, List.map_cons]
    congr 1
    by_cases h : a.1 = k
    · rw [if_pos (by simpa using h)]
    · rw [if_neg (by simpa using h)]

lemma dictInsert_keys_nodup (d : List (Str × Str)) (k v : Str)
    (h : (d.map Prod.fst).Nodup) : ((dictInsert d k v).map Prod.fst).Nodup := by
  unfold dictInsert
  by_cases hany : d.any (fun p => p.1 == k) = true
  · rw [if_pos hany, map_fst_update]
    exact h
  · rw [if_neg hany]
    have hk : k ∉ d.map Prod.fst := by
      intro hmem
      obtain ⟨p, hp, hpk⟩ := List.mem_map.mp hmem
      exact hany (List.any_eq_true.mpr ⟨p, hp, by simp [hpk]⟩)
    rw [List.map_append]
    simp only [List.map_cons, List.map_nil]
    exact List.Nodup.append h (List.nodup_singleton k)
      (by intro x hx hx'; simp at hx'; subst hx'; exact hk hx)

lemma parse_keys_nodup (l : Str) : ((parse l).map Prod.fst).Nodup := by
  unfold parse
  have : ∀ (segs : List Str) (d : List (Str × Str)), (d.map Prod.fst).Nodup →
      ((segs.foldl parseStep d).map Prod.fst).Nodup := by
    intro segs
    induction segs with
    | nil => intro d h; exact h
    | cons r rest ih =>
      intro d h
      rw [List.foldl_cons]
      rcases hr : segKV r with _ | ⟨k₀, v₀⟩
      · rw [show parseStep d r = d by simp [parseStep, hr]]
        exact ih d h
      · rw [show parseStep d r = dictInsert d k₀ v₀ by simp [parseStep, hr]]
        exact ih _ (dictInsert_keys_nodup d k₀ v₀ h)
  exact this _ [] (by simp)

lemma lookupD_eq_some_iff (d : List (Str × Str)) (hnd : (d.map Prod.fst).Nodup)
    (k v : Str) : lookupD d k = some v ↔ (k, v) ∈ d := by
  induction d with
  | nil => simp [lookupD]
  | cons a d ih =>
    simp only [List.map_cons, List.nodup_cons] at hnd
    obtain ⟨hkey, hnd'⟩ := hnd
    by_cases ha : a.1 = k
    · rw [show lookupD (a :: d) k = some a.2 by simp [lookupD, List.find?_cons, ha]]
      constructor
      · intro he
        have : a = (k, v) := by
          obtain ⟨a1, a2⟩ := a
          simp at ha he
          simp [ha, he]
        rw [← this]
        exact List.mem_cons_self _ _
      · intro hm
        rcases List.mem_cons.mp hm with he | hm'
        · rw [← he] at ha ⊢
        · exfalso
          apply hkey
          rw [ha]
          exact List.mem_map.mpr ⟨(k, v), hm', rfl⟩
    · rw [show lookupD (a :: d) k = lookupD d k by simp [lookupD, List.find?_cons, ha]]
      rw [ih hnd']
      constructor
      · intro h; exact List.mem_cons_of_mem _ h
      · intro h
        rcases List.mem_cons.mp h with he | hm'
        · exfalso; apply ha; rw [← he]
        · exact hm'

/-! ### Facts about the line diffs -/

lemma diffWith_eq_filter (ig : List Str) (l1 l2 : Str) :
    diffWith ig l1 l2 = (diff_lines l1 l2).filter (fun e => decide (e.1 ∉ ig)) := by
  unfold diffWith diff_lines
  rw [List.filter_filterMap]
  apply List.filterMap_congr
  intro p _
  rcases h : lookupD (parse l2) p.1 with _ | v2
  · simp only [h]
    by_cases hig : p.1 ∈ ig
    · simp [Option.filter, hig]
    · simp [Option.filter, hig]
  · simp only [h]
    by_cases hv : p.2 = v2
    · simp [Option.filter, hv]
    · by_cases hig : p.1 ∈ ig
      · simp [Option.filter, hv, hig, Ne.symm]
      · simp [Option.filter, hv, hig, Ne.symm]

lemma diff_lines_eq_diffWith_nil (l1 l2 : Str) :
    diffWith [] l1 l2 = diff_lines l1 l2 := by
  rw [diffWith_eq_filter]
  exact List.filter_eq_self.mpr (by intro a _; simp)

lemma diffWith_key_not_ignored (ig : List Str) (l1 l2 : Str) :
    ∀ e ∈ diffWith ig l1 l2, e.1 ∉ ig := by
  intro e he
  rw [diffWith_eq_filter] at he
  simpa using (List.mem_filter.mp he).2

lemma diffWith_eq_nil_of_ignored (ig : List Str) (l1 l2 : Str)
    (h : ∀ e ∈ diff_lines l1 l2, e.1 ∈ ig) : diffWith ig l1 l2 = [] := by
  rw [diffWith_eq_filter]
  apply List.filter_eq_nil_iff.mpr
  intro e he
  simpa using h e he

lemma diff_lines_mem_iff (l1 l2 : Str) (k v1 v2 : Str) :
    (k, v1, v2) ∈ diff_lines l1 l2 ↔
      lookupD (parse l1) k = some v1 ∧
        ((lookupD (parse l2) k = none ∧ v2 = notSet) ∨
          (lookupD (parse l2) k = some v2 ∧ v2 ≠ v1)) := by
  unfold diff_lines
  rw [List.mem_filterMap]
  constructor
  · rintro ⟨⟨pk, pv⟩, hp, hfp⟩
    dsimp only at hfp
    rcases h : lookupD (parse l2) pk with _ | w
    · rw [h] at hfp
      dsimp only at hfp
      simp only [Option.some.injEq, Prod.mk.injEq] at hfp
      obtain ⟨hk, hv, hs⟩ := hfp
      subst hk
      subst hv
      refine ⟨(lookupD_eq_some_iff _ (parse_keys_nodup l1) _ _).mpr hp, Or.inl ⟨h, hs.symm⟩⟩
    · rw [h] at hfp
      dsimp only at hfp
      by_cases hv : pv = w
      · rw [if_neg (fun hne => hne hv)] at hfp
        exact absurd hfp (by simp)
      · rw [if_pos hv] at hfp
        simp only [Option.some.injEq, Prod.mk.injEq] at hfp
        obtain ⟨hk, hv1, hv2⟩ := hfp
        subst hk
        subst hv1
        subst hv2
        exact ⟨(lookupD_eq_some_iff _ (parse_keys_nodup l1) _ _).mpr hp,
          Or.inr ⟨h, fun e => hv e.symm⟩⟩
  · rintro ⟨h1, h2⟩
    have hm : (k, v1) ∈ parse l1 :=
      (lookupD_eq_some_iff _ (parse_keys_nodup l1) k v1).mp h1
    refine ⟨(k, v1), hm, ?_⟩
    dsimp only
    rcases h2 with ⟨hn, hv⟩ | ⟨hs, hv⟩
    · rw [hn, hv]
    · rw [hs]
      dsimp only
      rw [if_pos (show v1 ≠ v2 from fun e => hv e.symm)]

/-! ### Facts about the scanning loop -/

lemma scan_nil (ig : List Str) (limit : Int) (i : Nat) (ms : List Nat) :
    scan ig limit i [] ms = ms := rfl

lemma scan_cons (ig : List Str) (limit : Int) (i : Nat) (l1 l2 : Str)
    (rest : List (Str × Str)) (ms : List Nat) :
    scan ig limit i ((l1, l2) :: rest) ms =
      if l1 = l2 then scan ig limit (i + 1) rest ms
      else if diffWith ig l1 l2 = [] then scan ig limit (i + 1) rest ms
      else if ((ms ++ [i]).length : Int) > limit then ms ++ [i]
      else scan ig limit (i + 1) rest (ms ++ [i]) := rfl

lemma scan_skip_all (ig : List Str) (limit : Int) :
    ∀ (pairs : List (Str × Str)) (i : Nat) (ms : List Nat),
      (∀ p ∈ pairs, diffWith ig p.1 p.2 = []) →
      scan ig limit i pairs ms = ms := by
  intro pairs
  induction pairs with
  | nil => intro i ms _; rfl
  | cons p rest ih =>
    intro i ms h
    obtain ⟨l1, l2⟩ := p
    rw [scan_cons]
    by_cases he : l1 = l2
    · rw [if_pos he]
      exact ih _ _ (fun q hq => h q (List.mem_cons_of_mem _ hq))
    · rw [if_neg he, if_pos (h (l1, l2) (List.mem_cons_self _ _))]
      exact ih _ _ (fun q hq => h q (List.mem_cons_of_mem _ hq))

lemma scan_length_le (ig : List Str) (limit : Int) :
    ∀ (pairs : List (Str × Str)) (i : Nat) (ms : List Nat),
      (ms.length : Int) ≤ limit →
      ((scan ig limit i pairs ms).length : Int) ≤ limit + 1 := by
  intro pairs
  induction pairs with
  | nil =>
    intro i ms h
    rw [scan_nil]
    omega
  | cons p rest ih =>
    intro i ms h
    obtain ⟨l1, l2⟩ := p
    rw [scan_cons]
    by_cases he : l1 = l2
    · rw [if_pos he]; exact ih _ _ h
    · rw [if_neg he]
      by_cases hd : diffWith ig l1 l2 = []
      · rw [if_pos hd]; exact ih _ _ h
      · rw [if_neg hd]
        by_cases hlim : ((ms ++ [i]).length : Int) > limit
        · rw [if_pos hlim]
          simp only [List.length_append, List.length_cons, List.length_nil]
          push_cast
          omega
        · rw [if_neg hlim]
          refine ih _ _ ?_
          simp only [List.length_append, List.length_cons, List.length_nil] at hlim ⊢
          push_cast at hlim ⊢
          omega

lemma scan_early_stop (ig : List Str) (limit : Int) :
    ∀ (pairs extra : List (Str × Str)) (i : Nat) (ms : List Nat),
      (ms.length : Int) ≤ limit →
      ((scan ig limit i pairs ms).length : Int) > limit →
      scan ig limit i (pairs ++ extra) ms = scan ig limit i pairs ms := by
  intro pairs
  induction pairs with
  | nil =>
    intro extra i ms h1 h2
    rw [scan_nil] at h2
    omega
  | cons p rest ih =>
    intro extra i ms h1 h2
    obtain ⟨l1, l2⟩ := p
    rw [scan_cons] at h2
    rw [List.cons_append, scan_cons, scan_cons]
    by_cases he : l1 = l2
    · rw [if_pos he] at h2
      rw [if_pos he, if_pos he]
      exact ih extra _ _ h1 h2
    · rw [if_neg he] at h2
      rw [if_neg he, if_neg he]
      by_cases hd : diffWith ig l1 l2 = []
      · rw [if_pos hd] at h2
        rw [if_pos hd, if_pos hd]
        exact ih extra _ _ h1 h2
      · rw [if_neg hd] at h2
        rw [if_neg hd, if_neg hd]
        by_cases hlim : ((ms ++ [i]).length : Int) > limit
        · rw [if_pos hlim, if_pos hlim]
        · rw [if_neg hlim] at h2
          rw [if_neg hlim, if_neg hlim]
          refine ih extra _ _ ?_ h2
          simp only [List.length_append, List.length_cons, List.length_nil] at hlim ⊢
          push_cast at hlim ⊢
          omega

/-! ### Splitting a segment with an explicit separator occurrence -/

lemma splitOnChar_ne_nil (sep : Char) : ∀ s : List Char, splitOnChar sep s ≠ [] := by
  intro s
  induction s with
  | nil => simp [splitOnChar]
  | cons c cs ih =>
    rw [splitOnChar]
    rcases h : splitOnChar sep cs with _ | ⟨g, gs⟩
    · simp
    · by_cases hc : c = sep <;> simp [hc]

lemma splitOnChar_sep_append (sep : Char) (s t : List Char) (h : sep ∉ s) :
    splitOnChar sep (s ++ sep :: t) = s :: splitOnChar sep t := by
  induction s with
  | nil =>
    rw [List.nil_append, splitOnChar]
    rcases ht : splitOnChar sep t with _ | ⟨g, gs⟩
    · exact absurd ht (splitOnChar_ne_nil sep t)
    · dsimp only
      rw [if_pos rfl]
  | cons c cs ih =>
    have hc : c ≠ sep := fun e => h (by rw [e]; exact List.mem_cons_self _ _)
    have h' : sep ∉ cs := fun hm => h (List.mem_cons_of_mem _ hm)
    rw [List.cons_append, splitOnChar]
    rcases hrec : splitOnChar sep (cs ++ sep :: t) with _ | ⟨g, gs⟩
    · exact absurd hrec (splitOnChar_ne_nil sep _)
    · rw [ih h'] at hrec
      injection hrec with he1 he2
      dsimp only
      rw [if_neg hc, ← he1, ← he2]


/-! ### The claims -/

/-- Claim C1, as stated, is false: the Python comprehension splits a
segment on every `:` (no maxsplit) and records `p[0] -> p[1]`, so parsing
`"a:1:2"` records the value `"1"` for key `"a"`, not the whole remaining
text `"1:2"`. -/
theorem C1_counterexample :
    parse "a:1:2".toList = [("a".toList, "1".toList)] ∧
      "1".toList ≠ "1:2".toList := by
  constructor
  · decide
  · decide

/-- Claim C1, amended: when a segment contains multiple `:` characters the
recorded value is the text strictly between the first and the second `:`;
anything after the second `:` is dropped.  Concretely, parsing `"a:1:2"`
yields the value `"1"` for key `"a"`. -/
theorem C1_value_between_first_two_colons (k v1 v2 : Str)
    (hk : ':' ∉ k) (hv : ':' ∉ v1) :
    segKV (k ++ ':' :: v1 ++ ':' :: v2) = some (k, v1) ∧
      parse "a:1:2".toList = [("a".toList, "1".toList)] := by
  constructor
  · unfold segKV
    rw [show k ++ ':' :: v1 ++ ':' :: v2 = k ++ ':' :: (v1 ++ ':' :: v2) from by simp]
    rw [splitOnChar_sep_append ':' k (v1 ++ ':' :: v2) hk]
    rw [splitOnChar_sep_append ':' v1 v2 hv]
  · decide

/-- Witness for the amended C1 at `k = "a"`, `v1 = "1"`, `v2 = "2"`. -/
theorem C1_value_between_first_two_colons_witness :
    (':' ∉ "a".toList) ∧ (':' ∉ "1".toList) ∧
      segKV ("a".toList ++ ':' :: "1".toList ++ ':' :: "2".toList) =
        some ("a".toList, "1".toList) :=
  ⟨by decide, by decide,
    (C1_value_between_first_two_colons "a".toList "1".toList "2".toList
      (by decide) (by decide)).1⟩

/-- Claim C2: on a list of pairwise-distinct integers, `ranges` produces
inclusive ranges that partition the sorted input exactly: concatenating
the integer intervals of the produced ranges gives back exactly the sorted
input (so every value lies in exactly one range), each range has
`start ≤ end`, and consecutive ranges are separated by a gap of at least
one missing integer (so ranges are ascending, non-overlapping, and each is
a maximal run of consecutive integers); concretely,
`ranges [1,2,3,7,9,10] = [(1,3),(7,7),(9,10)]`, `ranges [] = []`, and
`ranges [5] = [(5,5)]`. -/
theorem C2_ranges_partition (vals : List Int) (hd : vals.Pairwise (· ≠ ·)) :
    ((ranges vals).flatMap (fun r => intList r.1 r.2) =
        List.insertionSort (· ≤ ·) vals
      ∧ (∀ r ∈ ranges vals, r.1 ≤ r.2)
      ∧ List.Chain' (fun r s : Int × Int => r.2 + 1 < s.1) (ranges vals))
    ∧ ranges [1, 2, 3, 7, 9, 10] = [(1, 3), (7, 7), (9, 10)]
    ∧ ranges [] = []
    ∧ ranges [5] = [(5, 5)] :=
  ⟨⟨ranges_flatMap vals hd, ranges_le vals, ranges_chain vals hd⟩,
    by decide, by decide, by decide⟩

/-- Witness for C2 at the concrete distinct input `[1,2,3,7,9,10]`. -/
theorem C2_ranges_partition_witness :
    ([1, 2, 3, 7, 9, 10] : List Int).Pairwise (· ≠ ·) ∧
      (ranges [1, 2, 3, 7, 9, 10]).flatMap (fun r => intList r.1 r.2) =
        List.insertionSort (· ≤ ·) [1, 2, 3, 7, 9, 10] :=
  ⟨by decide, (C2_ranges_partition [1, 2, 3, 7, 9, 10] (by decide)).1.1⟩

/-- Claim C3, as stated, is false: on the duplicate input `[1, 1]` the
scan closes the current run (a repeated value is not `last + 1`) and
reopens it at the same value, so `ranges [1, 1]` contains the range
`(1, 1)` twice. -/
theorem C3_counterexample :
    ranges [1, 1] = [(1, 1), (1, 1)] ∧ (ranges [1, 1]).count (1, 1) = 2 := by
  constructor
  · decide
  · decide

/-- Claim C3, amended: duplicate input values can produce duplicate
(hence overlapping) ranges — `ranges [1,1] = [(1,1),(1,1)]` — but every
produced range, duplicates in the input or not, still satisfies
`start ≤ end`. -/
theorem C3_duplicates_duplicate_ranges :
    (∀ vals : List Int, ∀ r ∈ ranges vals, r.1 ≤ r.2) ∧
      ranges [1, 1] = [(1, 1), (1, 1)] :=
  ⟨fun vals => ranges_le vals, by decide⟩

/-- Witness for the amended C3 at `vals = [1, 1]`, `r = (1, 1)`. -/
theorem C3_duplicates_duplicate_ranges_witness :
    ((1, 1) ∈ ranges [1, 1]) ∧ ((1 : Int) ≤ 1) :=
  ⟨by decide, C3_duplicates_duplicate_ranges.1 [1, 1] (1, 1) (by decide)⟩

/-- Claim C4: `parse` splits its input on `/`, discards segments without a
`:` (they contribute nothing and nothing fails), records key to value with
later duplicate keys overwriting earlier ones — for every line and key,
the looked-up value is the value of the last `:`-bearing `/`-segment with
that key — the empty string parses to the empty mapping, and
`"a:1/b:2"` and `"a:1/x/b:2"` both parse to `{a: "1", b: "2"}`. -/
theorem C4_parse_contract :
    (∀ (l : Str) (k : Str),
        lookupD (parse l) k =
          ((((splitOnChar '/' l).filterMap segKV).filter
            (fun p => p.1 == k)).getLast?).map (fun p => p.2))
    ∧ parse "".toList = []
    ∧ parse "a:1/b:2".toList = [("a".toList, "1".toList), ("b".toList, "2".toList)]
    ∧ parse "a:1/x/b:2".toList = [("a".toList, "1".toList), ("b".toList, "2".toList)] :=
  ⟨parse_lookup, by decide, by decide, by decide⟩

/-- Claim C5: an entry `(k, v1, v2)` is in the line diff exactly when side
1's record maps `k` to `v1` and either `k` is absent from side 2's record
(then `v2` is the sentinel `"(not set)"`) or side 2 maps `k` to the
different value `v2`; a key absent from side 1's record never appears; and
`diff_lines "a:1" "b:2" = {a: {1: "1", 2: "(not set)"}}` with key `b`
nowhere in it. -/
theorem C5_diff_from_side1 :
    (∀ (l1 l2 : Str) (k v1 v2 : Str),
        (k, v1, v2) ∈ diff_lines l1 l2 ↔
          lookupD (parse l1) k = some v1 ∧
            ((lookupD (parse l2) k = none ∧ v2 = notSet) ∨
              (lookupD (parse l2) k = some v2 ∧ v2 ≠ v1)))
    ∧ (∀ (l1 l2 : Str) (e : Str × Str × Str), e ∈ diff_lines l1 l2 →
        lookupD (parse l1) e.1 = some e.2.1)
    ∧ diff_lines "a:1".toList "b:2".toList = [("a".toList, "1".toList, notSet)] := by
  refine ⟨diff_lines_mem_iff, ?_, by decide⟩
  intro l1 l2 e he
  obtain ⟨k, v1, v2⟩ := e
  exact ((diff_lines_mem_iff l1 l2 k v1 v2).mp he).1

/-- Witness for C5 at the concrete lines `"a:1"` and `"b:2"`. -/
theorem C5_diff_from_side1_witness :
    (("a".toList, "1".toList, notSet) ∈ diff_lines "a:1".toList "b:2".toList) ∧
      lookupD (parse "a:1".toList) "a".toList = some "1".toList :=
  ⟨by decide,
    C5_diff_from_side1.2.1 "a:1".toList "b:2".toList
      ("a".toList, "1".toList, notSet) (by decide)⟩

/-- Claim C6: an ignored key never appears in the filtered per-line diff
that decides mistakes; `diffWith {k} "k:1/j:2" "k:9/j:2"` is empty while
`diffWith {} (same) = {k: {1: "1", 2: "9"}}`; and two equal-length logs
whose line diffs involve only ignored keys yield the success outcome. -/
theorem C6_ignore_respected :
    (∀ (ignored : List Str) (l1 l2 : Str), ∀ e ∈ diffWith ignored l1 l2,
        e.1 ∉ ignored)
    ∧ diffWith ["k".toList] "k:1/j:2".toList "k:9/j:2".toList = []
    ∧ diffWith [] "k:1/j:2".toList "k:9/j:2".toList =
        [("k".toList, "1".toList, "9".toList)]
    ∧ (∀ (ignored : List Str) (limit : Int) (log1 log2 : List Str),
        log1.length = log2.length →
        (∀ p ∈ log1.zip log2, ∀ e ∈ diff_lines p.1 p.2, e.1 ∈ ignored) →
        mainRun ignored limit log1 log2 = .success) := by
  refine ⟨diffWith_key_not_ignored, by decide, by decide, ?_⟩
  intro ignored limit log1 log2 hlen hign
  have hall : ∀ p ∈ log1.zip log2, diffWith ignored p.1 p.2 = [] :=
    fun p hp => diffWith_eq_nil_of_ignored ignored p.1 p.2 (hign p hp)
  unfold mainRun
  rw [if_neg (by omega)]
  dsimp only
  rw [scan_skip_all ignored limit (log1.zip log2) 0 [] hall]
  rfl

/-- Witness for C6 on one-line logs differing only on the ignored key. -/
theorem C6_ignore_respected_witness :
    (["k:1/j:2".toList].length = ["k:9/j:2".toList].length) ∧
      (∀ p ∈ ["k:1/j:2".toList].zip ["k:9/j:2".toList],
        ∀ e ∈ diff_lines p.1 p.2, e.1 ∈ ["k".toList]) ∧
      mainRun ["k".toList] 64 ["k:1/j:2".toList] ["k:9/j:2".toList] =
        .success :=
  ⟨by decide, by decide,
    C6_ignore_respected.2.2.2 ["k".toList] 64 _ _ (by decide) (by decide)⟩

/-- Claim C7: on logs with different line counts the driver reports the
mismatch and performs no per-line analysis — the outcome is the length
mismatch report, whatever the line contents, with no mistakes and no
summary produced. -/
theorem C7_length_mismatch (ignored : List Str) (limit : Int)
    (log1 log2 : List Str) (h : log1.length ≠ log2.length) :
    mainRun ignored limit log1 log2 = .lengthMismatch := by
  unfold mainRun
  rw [if_pos h]

/-- Witness for C7 on a one-line log against an empty log. -/
theorem C7_length_mismatch_witness :
    (["a".toList].length ≠ ([] : List Str).length) ∧
      mainRun [] 64 ["a".toList] [] = .lengthMismatch :=
  ⟨by decide, C7_length_mismatch [] 64 ["a".toList] [] (by decide)⟩

set_option maxRecDepth 40000 in
/-- Claim C8: once the recorded mistakes exceed the limit the scan stops
and the remaining line pairs are never examined — appending any further
line pairs does not change the result; concretely, with mistakes on every
of 71 lines and limit 64, the run stops after recording indices 0..64 and
the summary is exactly the single range `0..64`. -/
theorem C8_limit_early_stop :
    (∀ (ignored : List Str) (limit : Int) (pairs extra : List (Str × Str))
        (i : Nat) (ms : List Nat),
        (ms.length : Int) ≤ limit →
        ((scan ignored limit i pairs ms).length : Int) > limit →
        scan ignored limit i (pairs ++ extra) ms = scan ignored limit i pairs ms)
    ∧ mainRun [] 64 (List.replicate 71 "a:1".toList)
        (List.replicate 71 "a:2".toList) = .mistakes [(0, 64)] :=
  ⟨fun ignored limit => scan_early_stop ignored limit, by decide⟩

/-- Witness for C8 with limit 0: a first mismatching pair trips the limit
and a second appended pair does not change the scan's result. -/
theorem C8_limit_early_stop_witness :
    ((([] : List Nat).length : Int) ≤ 0) ∧
      (((scan [] 0 0 [("a:1".toList, "a:2".toList)] []).length : Int) > 0) ∧
      scan [] 0 0 ([("a:1".toList, "a:2".toList)] ++
          [("b:1".toList, "b:2".toList)]) [] =
        scan [] 0 0 [("a:1".toList, "a:2".toList)] [] :=
  ⟨by decide, by decide,
    C8_limit_early_stop.1 [] 0 [("a:1".toList, "a:2".toList)]
      [("b:1".toList, "b:2".toList)] 0 [] (by decide) (by decide)⟩

/-- Claim C9 (implicit): for equal-length logs, any ignore set and any
limit `L ≥ 0`, the scan records at most `L + 1` mistakes — the mistake
that makes the count exceed the limit is recorded — and every recorded
mistake index is covered by some range of the final summary. -/
theorem C9_mistake_bound (ignored : List Str) (limit : Int)
    (log1 log2 : List Str) (hl : 0 ≤ limit)
    (hlen : log1.length = log2.length) :
    ((scan ignored limit 0 (log1.zip log2) []).length : Int) ≤ limit + 1 ∧
      ∀ m ∈ scan ignored limit 0 (log1.zip log2) [],
        ∃ r ∈ ranges ((scan ignored limit 0 (log1.zip log2) []).map Int.ofNat),
          r.1 ≤ (m : Int) ∧ (m : Int) ≤ r.2 := by
  constructor
  · exact scan_length_le ignored limit (log1.zip log2) 0 [] (by simpa using hl)
  · intro m hm
    exact ranges_cover _ (m : Int) (List.mem_map.mpr ⟨m, hm, rfl⟩)

/-- Witness for C9 on one-line logs with limit 0. -/
theorem C9_mistake_bound_witness :
    ((0 : Int) ≤ 0) ∧ (["a:1".toList].length = ["a:2".toList].length) ∧
      ((scan [] 0 0 (["a:1".toList].zip ["a:2".toList]) []).length : Int) ≤ 0 + 1 :=
  ⟨by decide, by decide,
    (C9_mistake_bound [] 0 ["a:1".toList] ["a:2".toList]
      (by decide) (by decide)).1⟩

/-- Claim C10 (implicit): the diffs printed for the up-to-3 preceding
context lines are computed by `diff_lines`, which takes no ignore set —
they equal the context diffs computed with an empty ignore set, for every
ignore set in force; concretely an ignored differing key `k` still shows
up in the context diff of a preceding line even though `k` can never make
a line a mistake (`diffWith {k} "k:1" "k:9"` is empty). -/
theorem C10_context_ignores_not_applied :
    (∀ (log1 log2 : List Str) (i : Nat),
        contextDiffs log1 log2 i = contextDiffsWith [] log1 log2 i)
    ∧ contextDiffs ["k:1".toList, "k:1".toList] ["k:9".toList, "k:9".toList] 1 =
        [[("k".toList, "1".toList, "9".toList)]]
    ∧ diffWith ["k".toList] "k:1".toList "k:9".toList = [] := by
  refine ⟨?_, by decide, by decide⟩
  intro log1 log2 i
  unfold contextDiffs contextDiffsWith
  apply List.filterMap_congr
  intro j _
  by_cases h : i < 3 - j
  · rw [if_pos h, if_pos h]
  · rw [if_neg h, if_neg h, diff_lines_eq_diffWith_nil]
